import Mathlib

/-!
Verification of the snatchbot core algorithms: the anagram dictionary and
subset-based snatchable-word solver (`snatchable_word_generator.h`), and the
letter-node adjacency graph builder and connected-component word extractor
(`letter_node_utils.h`).  C++ strings are modelled as `List Char`, C++
`unordered_map`/`unordered_set` as association lists / lists without
duplicates, and `float` footprint fields as rationals.
-/

namespace Snatchbot

/-- A C++ `std::string` is a sequence of characters. -/
abbrev Str := List Char

/-- `std::sort` over the characters of a string (sorted by character value). -/
def sortChars (s : Str) : Str := s.mergeSort (fun a b => decide (a ≤ b))

/-- The anagram index `sortedStringToAnagrams : unordered_map<string, vector<string>>`,
modelled as an association list. -/
abbrev AnagramIndex := List (Str × List Str)

/-- `m[k].push_back(w)`: append `w` to the bucket of key `k`, creating the
bucket when the key is absent (default-constructed empty vector). -/
def indexInsert (m : AnagramIndex) (k : Str) (w : Str) : AnagramIndex :=
  match m with
  | [] => [(k, [w])]
  | (k', ws) :: rest =>
    if k' = k then (k', ws ++ [w]) :: rest else (k', ws) :: indexInsert rest k w

/-- Lookup of a key in the anagram index (`contains` / `at`). -/
def indexFind? (m : AnagramIndex) (k : Str) : Option (List Str) :=
  match m with
  | [] => none
  | (k', ws) :: rest => if k' = k then some ws else indexFind? rest k

/-- The bucket stored at key `k`, empty when `contains` is false. -/
def bucket (m : AnagramIndex) (k : Str) : List Str := (indexFind? m k).getD []

/-- The `SnatchableWordGenerator` constructor: read the dictionary line by
line; skip words of length below three; uppercase the word; insert it into
the bucket keyed by its sorted characters. -/
def buildIndex (lines : List Str) : AnagramIndex :=
  lines.foldl (fun m word =>
    if word.length < 3 then m
    else
      let uw := word.map Char.toUpper
      indexInsert m (sortChars uw) uw) []

/-- `SnatchableWordGenerator::generateSubsets(i, words)`: all subsets of
`words[0..i]`, by recursion on `i` (an `int`, so it may be negative). -/
def generateSubsets (i : Int) (words : List Str) : List (List Str) :=
  if i < 0 then []
  else if i = 0 then [[], [words.getD 0 []]]
  else
    (generateSubsets (i - 1) words).flatMap
      (fun subset => [subset, subset ++ [words.getD i.toNat []]])
termination_by i.toNat
decreasing_by
  rename_i h1 h2
  have hi : 0 < i := lt_of_le_of_ne (not_lt.mp h1) (Ne.symm h2)
  omega

/-- `SnatchableWordGenerator::generateSnatchableWords(words)`: enumerate the
subsets of the input via `generateSubsets(size(words)-1, words)`, erase the
subsets of size at most one, and for each remaining subset concatenate its
words, sort the characters, and append every word of the bucket at that key. -/
def generateSnatchableWords (index : AnagramIndex) (words : List Str) : List Str :=
  let powerSetWords := generateSubsets ((words.length : Int) - 1) words
  let filtered := powerSetWords.filter (fun subset => !(subset.length ≤ 1 : Bool))
  filtered.flatMap (fun subset => bucket index (sortChars subset.flatten))

/-! ### Characterizing the subset enumeration

`generateSubsets i words` is the image, under selection of the words at the
chosen positions, of an enumeration of all subsets of the index set
`{0, …, i}`, each subset represented as a strictly increasing list. -/

/-- The index-level mirror of `generateSubsets`: all subsets of `{0, …, i}`
as strictly increasing lists of positions, in enumeration order. -/
def indexSubsets : Nat → List (List Nat)
  | 0 => [[], [0]]
  | i + 1 => (indexSubsets i).flatMap (fun s => [s, s ++ [i + 1]])

/-- Selection of the words of `words` at a list of positions. -/
def selectWords (words : List Str) (S : List Nat) : List Str :=
  S.map (fun j => words.getD j [])

/-- The index subsets that survive the size filter of
`generateSnatchableWords`. -/
def bigIndexSubsets (n : Nat) : List (List Nat) :=
  if n = 0 then []
  else (indexSubsets (n - 1)).filter (fun S => !(S.length ≤ 1 : Bool))

/-! ### The letter-node graph (`letter_node.h`, `letter_node_utils.h`)

`cv::Point2f`/`cv::Size2f` coordinates are modelled as rationals, the
`unordered_map` graph as an association list, and the `unordered_set`
neighbor sets as duplicate-free lists. -/

/-- `cv::Size2f`: the extent of a rotated rectangle. -/
structure Size2f where
  width : ℚ
  height : ℚ
deriving DecidableEq

/-- `cv::Size2f::area()`. -/
def Size2f.area (s : Size2f) : ℚ := s.width * s.height

/-- `cv::RotatedRect`: center, size and rotation angle. -/
structure RotatedRect where
  centerX : ℚ
  centerY : ℚ
  size : Size2f
  angle : ℚ
deriving DecidableEq

/-- `LetterNode`: a recognized letter with its bounding rotated rectangle.
Equality compares the letter and every footprint field. -/
structure LetterNode where
  letter : Char
  rect : RotatedRect
deriving DecidableEq

/-- A sample footprint for concrete instances. -/
def sampleRect : RotatedRect := ⟨0, 0, ⟨0, 0⟩, 0⟩

/-- A sample node labelled `A`. -/
def nodeA : LetterNode := ⟨'A', sampleRect⟩

/-- A sample node labelled `B`. -/
def nodeB : LetterNode := ⟨'B', sampleRect⟩

/-- `LetterNodeUtils::boundingBoxAdjacencyStrategy`, parameterized by the
area of the minimum-area rectangle enclosing the eight corner points of the
two footprints (`cv::minAreaRect`, external to the repository): adjacency
holds iff that area is below `3 * (0.5 * (area u + area v))`. -/
def boundingBoxAdjacencyStrategy (minAreaRectArea : LetterNode → LetterNode → ℚ)
    (u v : LetterNode) : Bool :=
  let averageTileSize : ℚ := (1 / 2) * (u.rect.size.area + v.rect.size.area)
  let threshold : ℚ := 3 * averageTileSize
  decide (minAreaRectArea u v < threshold)

/-- The graph `unordered_map<LetterNode, unordered_set<LetterNode>>` as an
association list with duplicate-free neighbor lists. -/
abbrev Graph := List (LetterNode × List LetterNode)

/-- `unordered_set::insert`: add an element if not present. -/
def setInsert (s : List LetterNode) (v : LetterNode) : List LetterNode :=
  if v ∈ s then s else s ++ [v]

/-- `graph[u].insert(v)`: update the entry of `u` (default-constructing an
empty set when `u` is not yet a key) by inserting `v`. -/
def graphInsert (g : Graph) (u v : LetterNode) : Graph :=
  match g with
  | [] => [(u, [v])]
  | (k, s) :: rest =>
    if k = u then (k, setInsert s v) :: rest else (k, s) :: graphInsert rest u v

/-- `LetterNodeUtils::createLetterNodeGraph`: for every ordered pair `(u, v)`
of input nodes with `isAdjacent(u, v)`, insert `v` into `graph[u]` and `u`
into `graph[v]`. -/
def createLetterNodeGraph (letterNodes : List LetterNode)
    (isAdjacent : LetterNode → LetterNode → Bool) : Graph :=
  letterNodes.foldl (fun g u =>
    letterNodes.foldl (fun g v =>
      if isAdjacent u v then graphInsert (graphInsert g u v) v u else g) g) []

/-- `graph.at(u)` as a partial lookup. -/
def graphAt? (g : Graph) (u : LetterNode) : Option (List LetterNode) :=
  match g with
  | [] => none
  | (k, s) :: rest => if k = u then some s else graphAt? rest u

/-- The key set of the graph, in iteration order. -/
def keys (g : Graph) : List LetterNode := g.map Prod.fst

/-- `b` is in the neighbor set of `a`. -/
def inNeighbors (g : Graph) (a b : LetterNode) : Bool :=
  match graphAt? g a with
  | none => false
  | some s => decide (b ∈ s)

/-- A closed but asymmetric graph: `A` lists `B` as a neighbor, `B` lists
nothing (iteration order: `B` first). -/
def gPath : Graph := [(nodeB, []), (nodeA, [nodeB])]

/-- A closed, symmetric, duplicate-free two-node graph with one component. -/
def gSym : Graph := [(nodeA, [nodeA, nodeB]), (nodeB, [nodeB, nodeA])]

/-- A closed one-node graph with a self-loop. -/
def gLoop : Graph := [(nodeA, [nodeA])]

/-- Well-formedness used by the extractor: every node in a neighbor set is a
key of the graph. -/
def Closed (g : Graph) : Prop :=
  ∀ pr ∈ g, ∀ v ∈ pr.2, v ∈ keys g

/-- Entry-level symmetry of the graph: every neighbor set member points back. -/
def SymG (g : Graph) : Prop :=
  ∀ pr ∈ g, ∀ v ∈ pr.2, inNeighbors g v pr.1 = true

instance decClosed (g : Graph) : Decidable (Closed g) :=
  inferInstanceAs (Decidable (∀ pr ∈ g, ∀ v ∈ pr.2, v ∈ keys g))

instance decSymG (g : Graph) : Decidable (SymG g) :=
  inferInstanceAs (Decidable (∀ pr ∈ g, ∀ v ∈ pr.2, inNeighbors g v pr.1 = true))

/-- One undirected step between nodes of the graph. -/
def ConnStep (g : Graph) (a b : LetterNode) : Prop :=
  inNeighbors g a b = true ∨ inNeighbors g b a = true

/-- Graph-theoretic connectivity: the reflexive-transitive closure of the
undirected step relation. -/
def Connected (g : Graph) : LetterNode → LetterNode → Prop :=
  Relation.ReflTransGen (ConnStep g)

open Classical in
/-- The connected component of `u`: the keys connected to `u`. -/
noncomputable def componentFinset (g : Graph) (u : LetterNode) : Finset LetterNode :=
  (keys g).toFinset.filter (fun v => Connected g u v)

open Classical in
/-- The number of connected components among the keys of the graph. -/
noncomputable def componentCount (g : Graph) : Nat :=
  ((keys g).toFinset.image (fun u => componentFinset g u)).card

mutual
/-- `LetterNodeUtils::dfs`: mark `u` visited, append its letter to the word,
and recurse into each not-yet-visited neighbor of `u` in turn.  The `fuel`
argument bounds the recursion depth; `none` models a missing-key lookup
failure or fuel exhaustion (the latter never occurs on closed graphs for the
fuel supplied by `findConnectedComponents`, see `dfs_term_all`). -/
def dfs (g : Graph) : Nat → LetterNode → List LetterNode → List Char →
    Option (List LetterNode × List Char)
  | 0, _, _, _ => none
  | fuel + 1, u, visited, word =>
    match graphAt? g u with
    | none => none
    | some nbrs => dfsNeighbors g fuel nbrs (setInsert visited u) (word ++ [u.letter])
termination_by fuel _ _ _ => (fuel, 0)

/-- The loop of `LetterNodeUtils::dfs` over a neighbor list, threading the
visited set and the word accumulator. -/
def dfsNeighbors (g : Graph) : Nat → List LetterNode → List LetterNode → List Char →
    Option (List LetterNode × List Char)
  | _, [], visited, word => some (visited, word)
  | fuel, v :: vs, visited, word =>
    if v ∈ visited then dfsNeighbors g fuel vs visited word
    else
      match dfs g fuel v visited word with
      | none => none
      | some r => dfsNeighbors g fuel vs r.1 r.2
termination_by fuel vs _ _ => (fuel, vs.length + 1)
end

/-- The loop of `LetterNodeUtils::findConnectedComponents` over the graph
entries: start a depth-first search at each not-yet-visited key and append
the produced word. -/
def fccAux (g : Graph) : List LetterNode → List LetterNode → List (List Char) →
    Option (List (List Char))
  | [], _, acc => some acc
  | u :: rest, visited, acc =>
    if u ∈ visited then fccAux g rest visited acc
    else
      match dfs g (keys g).length u visited [] with
      | none => none
      | some r => fccAux g rest r.1 (acc ++ [r.2])

/-- `LetterNodeUtils::findConnectedComponents`. -/
def findConnectedComponents (g : Graph) : Option (List (List Char)) :=
  fccAux g (keys g) [] []

/-- The number of keys of the graph not yet visited. -/
def unvisitedCount (g : Graph) (visited : List LetterNode) : Nat :=
  ((keys g).filter (fun k => decide (k ∉ visited))).length

/-- Postcondition of a successful `dfs` call started at an unvisited node:
the visited set grows by a duplicate-free block of fresh keys containing the
start node, the word grows by exactly their letters, every new node has its
whole neighbor set inside the final visited set, and every new node is
reachable from the start along directed neighbor steps. -/
def DfsOk (g : Graph) (fuel : Nat) : Prop :=
  ∀ u visited word v' w', u ∉ visited →
    dfs g fuel u visited word = some (v', w') →
    ∃ new : List LetterNode,
      v' = visited ++ new ∧
      w' = word ++ new.map LetterNode.letter ∧
      new.Nodup ∧ (∀ x ∈ new, x ∉ visited) ∧
      u ∈ new ∧
      (∀ x ∈ new, ∃ s, graphAt? g x = some s ∧ ∀ y ∈ s, y ∈ v') ∧
      (∀ x ∈ new, Relation.ReflTransGen (fun a b => inNeighbors g a b = true) u x)

/-- Postcondition of a successful `dfsNeighbors` call, analogous to `DfsOk`,
with every listed neighbor visited at the end and every new node reachable
from one of the listed neighbors. -/
def DfsNbOk (g : Graph) (fuel : Nat) : Prop :=
  ∀ vs visited word v' w',
    dfsNeighbors g fuel vs visited word = some (v', w') →
    ∃ new : List LetterNode,
      v' = visited ++ new ∧
      w' = word ++ new.map LetterNode.letter ∧
      new.Nodup ∧ (∀ x ∈ new, x ∉ visited) ∧
      (∀ v ∈ vs, v ∈ v') ∧
      (∀ x ∈ new, ∃ s, graphAt? g x = some s ∧ ∀ y ∈ s, y ∈ v') ∧
      (∀ x ∈ new, ∃ v ∈ vs,
        Relation.ReflTransGen (fun a b => inNeighbors g a b = true) v x)

theorem generateSubsets_eq_map (words : List Str) :
    ∀ i : Nat, generateSubsets (i : Int) words =
      (indexSubsets i).map (selectWords words) := by
  intro i
  induction i with
  | zero =>
    rw [generateSubsets]
    simp [indexSubsets, selectWords]
  | succ i ih =>
    rw [generateSubsets]
    have h1 : ¬ ((i + 1 : Nat) : Int) < 0 := by omega
    have h2 : ((i + 1 : Nat) : Int) ≠ 0 := by omega
    have h3 : ((i + 1 : Nat) : Int) - 1 = (i : Int) := by omega
    have h4 : ((i + 1 : Nat) : Int).toNat = i + 1 := by omega
    rw [if_neg h1, if_neg h2, h3, h4, ih, indexSubsets]
    rw [List.flatMap_map, List.map_flatMap]
    apply List.flatMap_congr
    intro s _
    simp [selectWords]

theorem mem_indexSubsets (i : Nat) (S : List Nat) :
    S ∈ indexSubsets i ↔ (S.Sorted (· < ·) ∧ ∀ j ∈ S, j ≤ i) := by
  induction i generalizing S with
  | zero =>
    constructor
    · intro h
      have h' : S = [] ∨ S = [0] := by simpa [indexSubsets] using h
      rcases h' with rfl | rfl <;> simp
    · rintro ⟨hs, hb⟩
      match S, hs with
      | [], _ => simp [indexSubsets]
      | [a], _ =>
        have : a = 0 := Nat.le_zero.mp (hb a (by simp))
        subst this; simp [indexSubsets]
      | a :: b :: t, hs =>
        have ha : a = 0 := Nat.le_zero.mp (hb a (by simp))
        have hb' : b = 0 := Nat.le_zero.mp (hb b (by simp))
        have : a < b := List.rel_of_sorted_cons hs b (by simp)
        omega
  | succ i ih =>
    rw [indexSubsets, List.mem_flatMap]
    constructor
    · rintro ⟨s, hs, hmem⟩
      obtain ⟨hsort, hbound⟩ := (ih s).mp hs
      simp only [List.mem_cons, List.mem_singleton, List.not_mem_nil, or_false] at hmem
      rcases hmem with h | h
      · subst h
        exact ⟨hsort, fun j hj => Nat.le_succ_of_le (hbound j hj)⟩
      · subst h
        refine ⟨?_, ?_⟩
        · apply List.pairwise_append.mpr
          refine ⟨hsort, by simp, ?_⟩
          intro a ha b hbmem
          have : b = i + 1 := by simpa using hbmem
          subst this
          exact Nat.lt_succ_of_le (hbound a ha)
        · intro j hj
          rcases List.mem_append.mp hj with h | h
          · exact Nat.le_succ_of_le (hbound j h)
          · simp at h; omega
    · rintro ⟨hsort, hbound⟩
      by_cases hmem : (i + 1) ∈ S
      · rcases List.eq_nil_or_concat S with rfl | ⟨T, b, rfl⟩
        · cases hmem
        · simp only [List.concat_eq_append] at hsort hbound hmem ⊢
          have hT := List.pairwise_append.mp hsort
          have hTlt : ∀ a ∈ T, a < b := fun a ha => hT.2.2 a ha b (by simp)
          have hbeq : b = i + 1 := by
            rcases List.mem_append.mp hmem with h | h
            · have h1 : i + 1 < b := hTlt _ h
              have h2 : b ≤ i + 1 := hbound b (by simp)
              omega
            · have := h; simp at this; omega
          subst hbeq
          refine ⟨T, (ih T).mpr ⟨hT.1, fun a ha => by have := hTlt a ha; omega⟩, ?_⟩
          simp
      · have hle : ∀ j ∈ S, j ≤ i := by
          intro j hj
          have h1 := hbound j hj
          have h2 : j ≠ i + 1 := fun h => hmem (h ▸ hj)
          omega
        exact ⟨S, (ih S).mpr ⟨hsort, hle⟩, by simp⟩

theorem not_succ_mem_indexSubsets (i : Nat) (s : List Nat) (hs : s ∈ indexSubsets i) :
    (i + 1) ∉ s := by
  intro h
  have := ((mem_indexSubsets i s).mp hs).2 _ h
  omega

theorem nodup_indexSubsets (i : Nat) : (indexSubsets i).Nodup := by
  induction i with
  | zero =>
    have : ([] : List Nat) ≠ [0] := by simp
    simp [indexSubsets, this]
  | succ i ih =>
    rw [indexSubsets, List.nodup_flatMap]
    refine ⟨?_, ?_⟩
    · intro s _
      have hne : s ≠ s ++ [i + 1] := by
        intro h
        have := congrArg List.length h
        simp at this
      simp [hne]
    · have hne : ∀ s ∈ indexSubsets i, ∀ t ∈ indexSubsets i, s ≠ t →
          List.Disjoint [s, s ++ [i + 1]] [t, t ++ [i + 1]] := by
        intro s hs t ht hst x hx hy
        simp only [List.mem_cons, List.mem_singleton, List.not_mem_nil, or_false] at hx hy
        have hsmem := not_succ_mem_indexSubsets i s hs
        have htmem := not_succ_mem_indexSubsets i t ht
        rcases hx with rfl | rfl <;> rcases hy with h | h
        · exact hst h
        · exact hsmem (h ▸ List.mem_append_right t (by simp))
        · exact htmem (h ▸ List.mem_append_right s (by simp))
        · exact hst (List.append_cancel_right h)
      exact List.Pairwise.imp_of_mem
        (fun ha hb hne' => hne _ ha _ hb hne') ih

theorem countP_flatMap_pair (p : List Nat → Bool) (w : Nat) (l : List (List Nat)) :
    (l.flatMap (fun s => [s, s ++ [w]])).countP p
      = l.countP p + l.countP (fun s => p (s ++ [w])) := by
  induction l with
  | nil => simp
  | cons a l ih =>
    simp only [List.flatMap_cons, List.countP_append, List.countP_cons, ih]
    cases hpa : p a <;> cases hpb : p (a ++ [w]) <;>
      simp [List.countP_nil, hpa, hpb] <;> omega

theorem countP_nil_indexSubsets (i : Nat) :
    (indexSubsets i).countP (fun s => s.length = 0) = 1 := by
  induction i with
  | zero => simp [indexSubsets]
  | succ i ih =>
    rw [indexSubsets, countP_flatMap_pair]
    have h0 : (indexSubsets i).countP (fun s => (s ++ [i + 1]).length = 0) = 0 := by
      apply List.countP_eq_zero.mpr
      intro s _
      simp
    rw [ih, h0]

theorem countP_small_indexSubsets (i : Nat) :
    (indexSubsets i).countP (fun s => s.length ≤ 1) = i + 2 := by
  induction i with
  | zero => simp [indexSubsets]
  | succ i ih =>
    rw [indexSubsets, countP_flatMap_pair]
    have h1 : (indexSubsets i).countP (fun s => (s ++ [i + 1]).length ≤ 1)
        = (indexSubsets i).countP (fun s => s.length = 0) := by
      apply List.countP_congr
      intro s _
      simp only [decide_eq_true_eq, List.length_append, List.length_cons,
        List.length_nil]
      omega
    rw [ih, h1, countP_nil_indexSubsets]

theorem countP_not_split (p : List Nat → Bool) (l : List (List Nat)) :
    l.countP p + l.countP (fun a => !(p a)) = l.length := by
  induction l with
  | nil => rfl
  | cons a l ih =>
    simp only [List.countP_cons]
    cases h : p a <;> simp [h] <;> omega

theorem length_flatMap_pair (w : Nat) (l : List (List Nat)) :
    (l.flatMap (fun s => [s, s ++ [w]])).length = 2 * l.length := by
  induction l with
  | nil => rfl
  | cons a l ih =>
    simp only [List.flatMap_cons, List.length_append, ih, List.length_cons,
      List.length_nil]
    omega

theorem length_indexSubsets (i : Nat) : (indexSubsets i).length = 2 ^ (i + 1) := by
  induction i with
  | zero => simp [indexSubsets]
  | succ i ih =>
    rw [indexSubsets, length_flatMap_pair, ih]
    ring

theorem mem_bigIndexSubsets (n : Nat) (S : List Nat) :
    S ∈ bigIndexSubsets n ↔
      (S.Sorted (· < ·) ∧ (∀ j ∈ S, j < n) ∧ 2 ≤ S.length) := by
  by_cases hn : n = 0
  · subst hn
    have he : bigIndexSubsets 0 = [] := rfl
    rw [he]
    simp only [List.not_mem_nil, false_iff]
    rintro ⟨_, hb, hlen⟩
    match S, hlen with
    | a :: t, _ => exact absurd (hb a (by simp)) (by omega)
  · rw [bigIndexSubsets, if_neg hn, List.mem_filter, mem_indexSubsets]
    constructor
    · rintro ⟨⟨hsort, hbound⟩, hp⟩
      refine ⟨hsort, fun j hj => by have := hbound j hj; omega, ?_⟩
      simp only [Bool.not_eq_true', decide_eq_false_iff_not, not_le] at hp
      omega
    · rintro ⟨hsort, hbound, hlen⟩
      refine ⟨⟨hsort, fun j hj => by have := hbound j hj; omega⟩, ?_⟩
      simp only [Bool.not_eq_true', decide_eq_false_iff_not, not_le]
      omega

theorem nodup_bigIndexSubsets (n : Nat) : (bigIndexSubsets n).Nodup := by
  rw [bigIndexSubsets]
  by_cases hn : n = 0
  · simp [hn]
  · rw [if_neg hn]
    exact (nodup_indexSubsets (n - 1)).filter _

theorem length_bigIndexSubsets (n : Nat) (hn : 1 ≤ n) :
    (bigIndexSubsets n).length = 2 ^ n - n - 1 := by
  rw [bigIndexSubsets, if_neg (by omega), ← List.countP_eq_length_filter]
  have hsplit := countP_not_split (fun S : List Nat => !(S.length ≤ 1 : Bool))
    (indexSubsets (n - 1))
  simp only [Bool.not_not] at hsplit
  have hsmall := countP_small_indexSubsets (n - 1)
  have htot := length_indexSubsets (n - 1)
  have hn2 : n - 1 + 1 = n := by omega
  rw [hn2] at htot
  have hpow : n < 2 ^ n := Nat.lt_two_pow n
  omega

/-- The enumeration considered by `generateSnatchableWords` after the size
filter, as the image of the index-subset enumeration. -/
theorem filtered_subsets_eq (ws : List Str) :
    (generateSubsets ((ws.length : Int) - 1) ws).filter
        (fun s => !(s.length ≤ 1 : Bool))
      = (bigIndexSubsets ws.length).map (selectWords ws) := by
  by_cases hn : ws.length = 0
  · rw [generateSubsets]
    rw [if_pos (by omega)]
    simp [bigIndexSubsets, hn]
  · have hcast : ((ws.length : Int) - 1) = ((ws.length - 1 : Nat) : Int) := by omega
    rw [hcast, generateSubsets_eq_map]
    rw [bigIndexSubsets, if_neg hn]
    rw [List.filter_map]
    congr 1
    apply List.filter_congr
    intro S _
    simp [Function.comp, selectWords]

/-- C3: for every input list of `n ≥ 1` words, the subset enumeration inside
`generateSnatchableWords`, after discarding subsets of size at most one,
considers exactly `2^n − n − 1` subsets: the images of all subsets of the
index set `{0..n−1}` (strictly increasing position lists) except the empty
set and the singletons, each exactly once. -/
theorem generateSubsets_filtered_spec (ws : List Str) (hw : 1 ≤ ws.length) :
    ∃ l : List (List Nat),
      (generateSubsets ((ws.length : Int) - 1) ws).filter
          (fun s => !(s.length ≤ 1 : Bool)) = l.map (selectWords ws) ∧
      l.Nodup ∧
      (∀ S : List Nat, S ∈ l ↔
        (S.Sorted (· < ·) ∧ (∀ j ∈ S, j < ws.length) ∧ 2 ≤ S.length)) ∧
      l.length = 2 ^ ws.length - ws.length - 1 := by
  refine ⟨bigIndexSubsets ws.length, filtered_subsets_eq ws, nodup_bigIndexSubsets _,
    mem_bigIndexSubsets _, length_bigIndexSubsets _ hw⟩

theorem coe_flatMap_multiset {α β : Type} (f : α → List β) (l : List α) :
    (↑(l.flatMap f) : Multiset β) = (l.map (fun a => (↑(f a) : Multiset β))).sum := by
  induction l with
  | nil => rfl
  | cons a l ih =>
    simp only [List.flatMap_cons, List.map_cons, List.sum_cons, ← ih]
    rfl

/-- C1: the multiset of words returned by `generateSnatchableWords` is the
sum, over the enumeration `l` of all subsets `S` of two or more distinct
input positions (each exactly once), of the dictionary bucket keyed by the
sorted concatenation of the words at the positions of `S`. -/
theorem generateSnatchableWords_multiset_spec (idx : AnagramIndex) (ws : List Str) :
    ∃ l : List (List Nat),
      l.Nodup ∧
      (∀ S : List Nat, S ∈ l ↔
        (S.Sorted (· < ·) ∧ (∀ j ∈ S, j < ws.length) ∧ 2 ≤ S.length)) ∧
      (↑(generateSnatchableWords idx ws) : Multiset Str) =
        (l.map (fun S =>
          (↑(bucket idx (sortChars (selectWords ws S).flatten)) : Multiset Str))).sum := by
  refine ⟨bigIndexSubsets ws.length, nodup_bigIndexSubsets _, mem_bigIndexSubsets _, ?_⟩
  simp only [generateSnatchableWords]
  rw [filtered_subsets_eq, coe_flatMap_multiset, List.map_map]
  rfl

/-- C7: on an input of zero or one words `generateSnatchableWords` returns
the empty list (the subset index being the input size minus one). -/
theorem generateSnatchableWords_small (idx : AnagramIndex) (ws : List Str)
    (h : ws.length ≤ 1) : generateSnatchableWords idx ws = [] := by
  simp only [generateSnatchableWords]
  rw [filtered_subsets_eq]
  have hempty : bigIndexSubsets ws.length = [] := by
    have h01 : ws.length = 0 ∨ ws.length = 1 := by omega
    rcases h01 with h0 | h1
    · rw [h0]; rfl
    · rw [h1]; rfl
  rw [hempty]
  rfl

/-! ### The anagram index built by the constructor -/

theorem bucket_indexInsert (m : AnagramIndex) (k w q : Str) :
    bucket (indexInsert m k w) q
      = if q = k then bucket m q ++ [w] else bucket m q := by
  induction m with
  | nil =>
    simp only [indexInsert, bucket, indexFind?]
    by_cases h : k = q
    · rw [if_pos h, if_pos h.symm]
      simp
    · rw [if_neg h, if_neg (fun e => h e.symm)]
  | cons p rest ih =>
    obtain ⟨k', bs⟩ := p
    simp only [indexInsert]
    by_cases h1 : k' = k
    · rw [if_pos h1]
      simp only [bucket, indexFind?]
      by_cases h2 : k' = q
      · rw [if_pos h2, if_pos h2, if_pos (show q = k from h2 ▸ h1)]
        simp
      · rw [if_neg h2, if_neg h2,
          if_neg (show ¬ q = k from fun e => h2 (h1.symm ▸ e ▸ rfl))]
    · rw [if_neg h1]
      simp only [bucket, indexFind?] at ih ⊢
      by_cases h2 : k' = q
      · rw [if_pos h2, if_pos h2, if_neg (fun e : q = k => h1 (h2.trans e))]
      · rw [if_neg h2, if_neg h2]
        exact ih

theorem bucket_buildIndex_foldl (lines : List Str) (m : AnagramIndex) (q : Str) :
    bucket (lines.foldl (fun m word =>
        if word.length < 3 then m
        else indexInsert m (sortChars (word.map Char.toUpper)) (word.map Char.toUpper)) m) q
      = bucket m q ++
        (lines.filter (fun w => !(w.length < 3 : Bool)
            && decide (sortChars (w.map Char.toUpper) = q))).map
          (fun w => w.map Char.toUpper) := by
  induction lines generalizing m with
  | nil => simp
  | cons w rest ih =>
    simp only [List.foldl_cons]
    by_cases hshort : w.length < 3
    · rw [if_pos hshort, ih]
      have hcond : (!(w.length < 3 : Bool)
          && decide (sortChars (w.map Char.toUpper) = q)) = false := by
        simp [hshort]
      rw [List.filter_cons, hcond]
      simp
    · rw [if_neg hshort, ih, bucket_indexInsert]
      by_cases hkey : sortChars (w.map Char.toUpper) = q
      · rw [if_pos hkey.symm]
        have hcond : (!(w.length < 3 : Bool)
            && decide (sortChars (w.map Char.toUpper) = q)) = true := by
          simp [hshort, hkey]
        rw [List.filter_cons, hcond]
        simp
      · rw [if_neg (fun e => hkey e.symm)]
        have hcond : (!(w.length < 3 : Bool)
            && decide (sortChars (w.map Char.toUpper) = q)) = false := by
          simp [hshort, hkey]
        rw [List.filter_cons, hcond]
        simp

theorem bucket_buildIndex (lines : List Str) (q : Str) :
    bucket (buildIndex lines) q
      = (lines.filter (fun w => !(w.length < 3 : Bool)
            && decide (sortChars (w.map Char.toUpper) = q))).map
          (fun w => w.map Char.toUpper) := by
  have h := bucket_buildIndex_foldl lines [] q
  simpa [buildIndex, bucket, indexFind?] using h

theorem length_sortChars (s : Str) : (sortChars s).length = s.length := by
  simp [sortChars, List.length_mergeSort]

theorem buildIndex_entry_lengths (lines : List Str) :
    ∀ p ∈ buildIndex lines, 3 ≤ p.1.length ∧ ∀ b ∈ p.2, 3 ≤ b.length := by
  have hstep : ∀ (m : AnagramIndex) (k w : Str), 3 ≤ k.length → 3 ≤ w.length →
      (∀ p ∈ m, 3 ≤ p.1.length ∧ ∀ b ∈ p.2, 3 ≤ b.length) →
      (∀ p ∈ indexInsert m k w, 3 ≤ p.1.length ∧ ∀ b ∈ p.2, 3 ≤ b.length) := by
    intro m k w hk hw
    induction m with
    | nil =>
      intro _ p hp
      simp only [indexInsert, List.mem_singleton] at hp
      subst hp
      exact ⟨hk, fun b hb => by simp at hb; subst hb; exact hw⟩
    | cons e rest ih =>
      intro hinv p hp
      obtain ⟨k', bs⟩ := e
      simp only [indexInsert] at hp
      by_cases h1 : k' = k
      · rw [if_pos h1] at hp
        rcases List.mem_cons.mp hp with rfl | h
        · refine ⟨(hinv (k', bs) (by simp)).1, ?_⟩
          intro b hb
          rcases List.mem_append.mp hb with h | h
          · exact (hinv (k', bs) (by simp)).2 b h
          · simp at h; subst h; exact hw
        · exact hinv p (List.mem_cons_of_mem _ h)
      · rw [if_neg h1] at hp
        rcases List.mem_cons.mp hp with rfl | h
        · exact hinv (k', bs) (by simp)
        · exact ih (fun p' hp' => hinv p' (List.mem_cons_of_mem _ hp')) p h
  rw [buildIndex]
  generalize hacc : ([] : AnagramIndex) = m0
  have hinv0 : ∀ p ∈ m0, 3 ≤ p.1.length ∧ ∀ b ∈ p.2, 3 ≤ b.length := by
    subst hacc; intro p hp; cases hp
  clear hacc
  induction lines generalizing m0 with
  | nil => exact hinv0
  | cons w rest ih =>
    simp only [List.foldl_cons]
    by_cases hshort : w.length < 3
    · rw [if_pos hshort]
      exact ih m0 hinv0
    · rw [if_neg hshort]
      apply ih
      apply hstep
      · rw [length_sortChars, List.length_map]; omega
      · rw [List.length_map]; omega
      · exact hinv0

/-- C6: the index built by the constructor discards every source line of
length below three (such a line never appears as a key nor in any bucket);
stores every retained line uppercased in the bucket keyed by its sorted
letters; and retains duplicate source lines as separate occurrences: each
bucket is exactly the uppercased retained lines mapping to its key, in
order. -/
theorem buildIndex_spec (lines : List Str) :
    (∀ w ∈ lines, w.length < 3 →
      ∀ p ∈ buildIndex lines, p.1 ≠ w ∧ w ∉ p.2) ∧
    (∀ w ∈ lines, ¬ w.length < 3 →
      w.map Char.toUpper ∈ bucket (buildIndex lines) (sortChars (w.map Char.toUpper))) ∧
    (∀ q : Str, bucket (buildIndex lines) q
      = (lines.filter (fun w => !(w.length < 3 : Bool)
            && decide (sortChars (w.map Char.toUpper) = q))).map
          (fun w => w.map Char.toUpper)) := by
  refine ⟨?_, ?_, bucket_buildIndex lines⟩
  · intro w _ hshort p hp
    have h := buildIndex_entry_lengths lines p hp
    constructor
    · intro e
      rw [e] at h
      omega
    · intro hw
      have := h.2 w hw
      omega
  · intro w hw hlong
    rw [bucket_buildIndex]
    apply List.mem_map_of_mem
    rw [List.mem_filter]
    refine ⟨hw, ?_⟩
    simp [hlong]

/-! ### The adjacency graph builder -/

theorem mem_setInsert (s : List LetterNode) (v b : LetterNode) :
    b ∈ setInsert s v ↔ b ∈ s ∨ b = v := by
  rw [setInsert]
  by_cases h : v ∈ s
  · rw [if_pos h]
    constructor
    · exact Or.inl
    · rintro (hb | rfl)
      · exact hb
      · exact h
  · rw [if_neg h]
    simp

theorem inNeighbors_graphInsert (g : Graph) (u v a b : LetterNode) :
    inNeighbors (graphInsert g u v) a b = true ↔
      (inNeighbors g a b = true ∨ (a = u ∧ b = v)) := by
  induction g with
  | nil =>
    simp only [graphInsert, inNeighbors, graphAt?]
    by_cases h : u = a
    · rw [if_pos h]
      subst h
      simp [mem_setInsert]
    · rw [if_neg h]
      simp only [decide_eq_true_eq]
      constructor
      · intro hfalse; cases hfalse
      · rintro (hfalse | ⟨rfl, _⟩)
        · cases hfalse
        · exact absurd rfl h
  | cons p rest ih =>
    obtain ⟨k, s⟩ := p
    rw [graphInsert]
    by_cases h1 : k = u
    · rw [if_pos h1]
      simp only [inNeighbors, graphAt?]
      by_cases h2 : k = a
      · rw [if_pos h2, if_pos h2]
        subst h2
        simp only [decide_eq_true_eq, mem_setInsert]
        constructor
        · rintro (hb | rfl)
          · exact Or.inl hb
          · exact Or.inr ⟨h1, rfl⟩
        · rintro (hb | ⟨_, rfl⟩)
          · exact Or.inl hb
          · exact Or.inr rfl
      · rw [if_neg h2, if_neg h2]
        have hau : ¬ (a = u) := fun e => h2 (h1.trans e.symm)
        simp only [inNeighbors] at *
        constructor
        · intro h; exact Or.inl h
        · rintro (h | ⟨rfl, _⟩)
          · exact h
          · exact absurd rfl hau
    · rw [if_neg h1]
      simp only [inNeighbors, graphAt?]
      by_cases h2 : k = a
      · rw [if_pos h2, if_pos h2]
        have hau : ¬ (a = u) := fun e => h1 (h2.trans e)
        constructor
        · intro h; exact Or.inl h
        · rintro (h | ⟨rfl, _⟩)
          · exact h
          · exact absurd rfl hau
      · rw [if_neg h2, if_neg h2]
        exact ih

theorem foldl_preserves {β γ : Type} (P : β → Prop) (f : β → γ → β)
    (hstep : ∀ b x, P b → P (f b x)) :
    ∀ (l : List γ) (b : β), P b → P (l.foldl f b) := by
  intro l
  induction l with
  | nil => intro b hb; exact hb
  | cons x t ih =>
    intro b hb
    exact ih (f b x) (hstep b x hb)

/-- Symmetry is preserved by the paired insertion the builder performs. -/
theorem symInvariant_pairInsert (g : Graph) (u0 v0 : LetterNode)
    (hg : ∀ a b, inNeighbors g a b = true → inNeighbors g b a = true) :
    ∀ a b, inNeighbors (graphInsert (graphInsert g u0 v0) v0 u0) a b = true →
      inNeighbors (graphInsert (graphInsert g u0 v0) v0 u0) b a = true := by
  intro a b hab
  rw [inNeighbors_graphInsert, inNeighbors_graphInsert] at hab ⊢
  rcases hab with (h | ⟨rfl, rfl⟩) | ⟨rfl, rfl⟩
  · exact Or.inl (Or.inl (hg a b h))
  · exact Or.inr ⟨rfl, rfl⟩
  · exact Or.inl (Or.inr ⟨rfl, rfl⟩)

/-- C5: whenever `u` is in the neighbor set of `v` in the graph built by
`createLetterNodeGraph` from a symmetric adjacency predicate, `v` is in the
neighbor set of `u` (the builder in fact inserts both directions for every
adjacent pair, so the graph is symmetric for every predicate). -/
theorem createLetterNodeGraph_symm (nodes : List LetterNode)
    (p : LetterNode → LetterNode → Bool)
    (hp : ∀ a b, p a b = p b a) (u v : LetterNode)
    (h : inNeighbors (createLetterNodeGraph nodes p) v u = true) :
    inNeighbors (createLetterNodeGraph nodes p) u v = true := by
  have hsym : ∀ a b, inNeighbors (createLetterNodeGraph nodes p) a b = true →
      inNeighbors (createLetterNodeGraph nodes p) b a = true := by
    rw [createLetterNodeGraph]
    refine foldl_preserves
      (fun g => ∀ a b, inNeighbors g a b = true → inNeighbors g b a = true)
      _ ?_ nodes [] ?_
    · intro g u0 hg
      refine foldl_preserves
        (fun g => ∀ a b, inNeighbors g a b = true → inNeighbors g b a = true)
        _ ?_ nodes g hg
      intro g' v0 hg'
      by_cases hadj : p u0 v0 = true
      · rw [if_pos hadj]
        exact symInvariant_pairInsert g' u0 v0 hg'
      · rw [if_neg hadj]
        exact hg'
    · intro a b hfalse
      simp [inNeighbors, graphAt?] at hfalse
  exact hsym v u h

theorem keys_graphInsert_mem (g : Graph) (u v a : LetterNode) :
    a ∈ keys (graphInsert g u v) ↔ a ∈ keys g ∨ a = u := by
  induction g with
  | nil => simp [graphInsert, keys]
  | cons p rest ih =>
    obtain ⟨k, s⟩ := p
    rw [graphInsert]
    by_cases h1 : k = u
    · rw [if_pos h1]
      subst h1
      simp only [keys, List.map_cons, List.mem_cons]
      tauto
    · rw [if_neg h1]
      simp only [keys, List.map_cons, List.mem_cons] at *
      rw [ih]
      tauto

theorem mem_keys_innerFold (p : LetterNode → LetterNode → Bool) (u0 a : LetterNode) :
    ∀ (vs : List LetterNode) (g : Graph),
      a ∈ keys (vs.foldl (fun g v =>
          if p u0 v = true then graphInsert (graphInsert g u0 v) v u0 else g) g) ↔
        a ∈ keys g ∨ ∃ v ∈ vs, p u0 v = true ∧ (a = u0 ∨ a = v) := by
  intro vs
  induction vs with
  | nil => simp
  | cons v t ih =>
    intro g
    rw [List.foldl_cons, ih]
    by_cases hadj : p u0 v = true
    · rw [if_pos hadj, keys_graphInsert_mem, keys_graphInsert_mem]
      constructor
      · rintro (((h | h0) | hv2) | ⟨w, hw, hpw, hor⟩)
        · exact Or.inl h
        · exact Or.inr ⟨v, by simp, hadj, Or.inl h0⟩
        · exact Or.inr ⟨v, by simp, hadj, Or.inr hv2⟩
        · exact Or.inr ⟨w, List.mem_cons_of_mem _ hw, hpw, hor⟩
      · rintro (h | ⟨w, hw, hpw, hor⟩)
        · exact Or.inl (Or.inl (Or.inl h))
        · rcases List.mem_cons.mp hw with rfl | hw'
          · rcases hor with h0 | hv2
            · exact Or.inl (Or.inl (Or.inr h0))
            · exact Or.inl (Or.inr hv2)
          · exact Or.inr ⟨w, hw', hpw, hor⟩
    · rw [if_neg hadj]
      constructor
      · rintro (h | ⟨w, hw, hpw, hor⟩)
        · exact Or.inl h
        · exact Or.inr ⟨w, List.mem_cons_of_mem _ hw, hpw, hor⟩
      · rintro (h | ⟨w, hw, hpw, hor⟩)
        · exact Or.inl h
        · rcases List.mem_cons.mp hw with rfl | hw'
          · exact absurd hpw hadj
          · exact Or.inr ⟨w, hw', hpw, hor⟩

theorem mem_keys_outerFold (p : LetterNode → LetterNode → Bool)
    (nodes : List LetterNode) (a : LetterNode) :
    ∀ (us : List LetterNode) (g : Graph),
      a ∈ keys (us.foldl (fun g u => nodes.foldl (fun g v =>
          if p u v = true then graphInsert (graphInsert g u v) v u else g) g) g) ↔
        a ∈ keys g ∨ ∃ u ∈ us, ∃ v ∈ nodes, p u v = true ∧ (a = u ∨ a = v) := by
  intro us
  induction us with
  | nil => simp
  | cons u t ih =>
    intro g
    rw [List.foldl_cons, ih, mem_keys_innerFold]
    constructor
    · rintro ((h | ⟨v, hv, hpv, hor⟩) | ⟨w, hw, hrest⟩)
      · exact Or.inl h
      · exact Or.inr ⟨u, by simp, v, hv, hpv, hor⟩
      · exact Or.inr ⟨w, List.mem_cons_of_mem _ hw, hrest⟩
    · rintro (h | ⟨w, hw, hrest⟩)
      · exact Or.inl (Or.inl h)
      · rcases List.mem_cons.mp hw with rfl | hw'
        · exact Or.inl (Or.inr hrest)
        · exact Or.inr ⟨w, hw', hrest⟩

theorem keys_createLetterNodeGraph (nodes : List LetterNode)
    (p : LetterNode → LetterNode → Bool) (a : LetterNode) :
    a ∈ keys (createLetterNodeGraph nodes p) ↔
      (a ∈ nodes ∧ ∃ v ∈ nodes, p a v = true ∨ p v a = true) := by
  rw [createLetterNodeGraph, mem_keys_outerFold p nodes a nodes []]
  simp only [keys, List.map_nil, List.not_mem_nil, false_or]
  constructor
  · rintro ⟨u, hu, v, hv, hpv, rfl | rfl⟩
    · exact ⟨hu, v, hv, Or.inl hpv⟩
    · exact ⟨hv, u, hu, Or.inr hpv⟩
  · rintro ⟨ha, v, hv, hpv | hpv⟩
    · exact ⟨a, ha, v, hv, hpv, Or.inl rfl⟩
    · exact ⟨v, hv, a, ha, hpv, Or.inr rfl⟩

/-- C4 (amended): a node appears as a key of the built graph exactly when
the adjacency predicate relates it (in either direction, possibly to
itself) to some node of the input; in particular a node adjacent to nothing
is absent from the graph. -/
theorem createLetterNodeGraph_key_iff (nodes : List LetterNode)
    (p : LetterNode → LetterNode → Bool) (a : LetterNode) :
    a ∈ keys (createLetterNodeGraph nodes p) ↔
      (a ∈ nodes ∧ ∃ v ∈ nodes, p a v = true ∨ p v a = true) :=
  keys_createLetterNodeGraph nodes p a

/-- C10: every key of the built graph has a nonempty neighbor set, and a
node for which the predicate holds for no pair involving it (not even with
itself) does not appear in the graph at all. -/
theorem createLetterNodeGraph_no_empty_buckets (nodes : List LetterNode)
    (p : LetterNode → LetterNode → Bool) :
    (∀ pr ∈ createLetterNodeGraph nodes p, pr.2 ≠ []) ∧
    (∀ u : LetterNode, (∀ v ∈ nodes, p u v = false ∧ p v u = false) →
      u ∉ keys (createLetterNodeGraph nodes p)) := by
  constructor
  · have hgi : ∀ (g : Graph) (u v : LetterNode),
        (∀ pr ∈ g, pr.2 ≠ []) → ∀ pr ∈ graphInsert g u v, pr.2 ≠ [] := by
      intro g u v
      induction g with
      | nil =>
        intro _ pr hpr
        simp only [graphInsert, List.mem_singleton] at hpr
        subst hpr
        simp
      | cons e rest ih =>
        intro hg pr hpr
        obtain ⟨k, s⟩ := e
        rw [graphInsert] at hpr
        by_cases h1 : k = u
        · rw [if_pos h1] at hpr
          rcases List.mem_cons.mp hpr with rfl | h
          · have hs := hg (k, s) (by simp)
            simp only [setInsert]
            by_cases hv : v ∈ s
            · rw [if_pos hv]; exact hs
            · rw [if_neg hv]; simp
          · exact hg pr (List.mem_cons_of_mem _ h)
        · rw [if_neg h1] at hpr
          rcases List.mem_cons.mp hpr with rfl | h
          · exact hg (k, s) (by simp)
          · exact ih (fun q hq => hg q (List.mem_cons_of_mem _ hq)) pr h
    rw [createLetterNodeGraph]
    refine foldl_preserves (fun g : Graph => ∀ pr ∈ g, pr.2 ≠ []) _ ?_ nodes [] ?_
    · intro g u hg
      refine foldl_preserves (fun g : Graph => ∀ pr ∈ g, pr.2 ≠ []) _ ?_ nodes g hg
      intro g' v hg'
      by_cases hadj : p u v
      · rw [if_pos hadj]
        exact hgi _ _ _ (hgi _ _ _ hg')
      · rw [if_neg hadj]
        exact hg'
    · intro pr hpr
      cases hpr
  · intro u hnone hmem
    obtain ⟨-, v, hv, hp | hp⟩ := (keys_createLetterNodeGraph nodes p u).mp hmem
    · exact absurd hp (by rw [(hnone v hv).1]; simp)
    · exact absurd hp (by rw [(hnone v hv).2]; simp)

/-- C8: under the bounding-box proximity strategy, two observations whose
footprints both have zero area never satisfy the adjacency inequality when
the enclosing rectangle's area (which is never negative) is nonzero. -/
theorem boundingBoxAdjacencyStrategy_zero_area
    (minAreaRectArea : LetterNode → LetterNode → ℚ) (u v : LetterNode)
    (hf : 0 ≤ minAreaRectArea u v)
    (hu : u.rect.size.area = 0) (hv : v.rect.size.area = 0)
    (hne : minAreaRectArea u v ≠ 0) :
    boundingBoxAdjacencyStrategy minAreaRectArea u v = false := by
  simp only [boundingBoxAdjacencyStrategy, hu, hv]
  have hz : (3 : ℚ) * ((1 / 2) * (0 + 0)) = 0 := by norm_num
  rw [hz, decide_eq_false_iff_not]
  exact not_lt.mpr hf

/-! ### The depth-first word extractor -/

theorem graphAt?_mem (g : Graph) (a : LetterNode) (s : List LetterNode)
    (h : graphAt? g a = some s) : (a, s) ∈ g := by
  induction g with
  | nil => cases h
  | cons p rest ih =>
    obtain ⟨k, t⟩ := p
    rw [graphAt?] at h
    by_cases hk : k = a
    · rw [if_pos hk] at h
      subst hk
      injection h with h
      subst h
      simp
    · rw [if_neg hk] at h
      exact List.mem_cons_of_mem _ (ih h)

theorem graphAt?_mem_keys (g : Graph) (a : LetterNode) (s : List LetterNode)
    (h : graphAt? g a = some s) : a ∈ keys g := by
  have := graphAt?_mem g a s h
  simp only [keys, List.mem_map]
  exact ⟨(a, s), this, rfl⟩

theorem mem_keys_graphAt? (g : Graph) (u : LetterNode) (h : u ∈ keys g) :
    ∃ s, graphAt? g u = some s := by
  induction g with
  | nil => cases h
  | cons p rest ih =>
    obtain ⟨k, t⟩ := p
    rw [graphAt?]
    by_cases hk : k = u
    · rw [if_pos hk]
      exact ⟨t, rfl⟩
    · rw [if_neg hk]
      apply ih
      simp only [keys, List.map_cons, List.mem_cons] at h
      rcases h with h | h
      · exact absurd h.symm hk
      · exact h

theorem inNeighbors_iff (g : Graph) (a b : LetterNode) :
    inNeighbors g a b = true ↔ ∃ s, graphAt? g a = some s ∧ b ∈ s := by
  rw [inNeighbors]
  cases h : graphAt? g a with
  | none =>
    simp only [Bool.false_eq_true, false_iff]
    rintro ⟨s, hs, -⟩
    cases hs
  | some s =>
    simp only [decide_eq_true_eq]
    constructor
    · intro hb
      exact ⟨s, rfl, hb⟩
    · rintro ⟨s', hs', hb⟩
      injection hs' with hs'
      subst hs'
      exact hb

theorem symG_inNeighbors (g : Graph) (hs : SymG g) (a b : LetterNode)
    (h : inNeighbors g a b = true) : inNeighbors g b a = true := by
  obtain ⟨s, hsome, hb⟩ := (inNeighbors_iff g a b).mp h
  exact hs (a, s) (graphAt?_mem g a s hsome) b hb

theorem setInsert_of_not_mem (s : List LetterNode) (v : LetterNode) (h : v ∉ s) :
    setInsert s v = s ++ [v] := by
  rw [setInsert, if_neg h]

theorem dfsNbOk_of_dfsOk (g : Graph) (fuel : Nat) (h : DfsOk g fuel) :
    DfsNbOk g fuel := by
  intro vs
  induction vs with
  | nil =>
    intro visited word v' w' heq
    rw [dfsNeighbors] at heq
    injection heq with heq
    injection heq with h1 h2
    refine ⟨[], by simp [← h1], by simp [← h2], by simp, by simp, ?_, by simp, by simp⟩
    intro v hv
    cases hv
  | cons v vs ih =>
    intro visited word v' w' heq
    rw [dfsNeighbors] at heq
    by_cases hv : v ∈ visited
    · rw [if_pos hv] at heq
      obtain ⟨new, t1, t2, t3, t4, t5, t6, t7⟩ := ih visited word v' w' heq
      refine ⟨new, t1, t2, t3, t4, ?_, t6, ?_⟩
      · intro x hx
        rcases List.mem_cons.mp hx with rfl | hx'
        · rw [t1]
          exact List.mem_append_left _ hv
        · exact t5 x hx'
      · intro x hx
        obtain ⟨u, hu, hr⟩ := t7 x hx
        exact ⟨u, List.mem_cons_of_mem _ hu, hr⟩
    · rw [if_neg hv] at heq
      cases hd : dfs g fuel v visited word with
      | none =>
        rw [hd] at heq
        cases heq
      | some r =>
        rw [hd] at heq
        obtain ⟨new₁, h1, h2, h3, h4, h5, h6, h7⟩ :=
          h v visited word r.1 r.2 hv (by rw [hd])
        obtain ⟨new₂, g1, g2, g3, g4, g5, g6, g7⟩ := ih r.1 r.2 v' w' heq
        have hsub1 : ∀ x ∈ new₁, x ∈ r.1 := by
          intro x hx
          rw [h1]
          exact List.mem_append_right _ hx
        have hrsub : ∀ x ∈ r.1, x ∈ v' := by
          intro x hx
          rw [g1]
          exact List.mem_append_left _ hx
        refine ⟨new₁ ++ new₂, ?_, ?_, ?_, ?_, ?_, ?_, ?_⟩
        · rw [g1, h1, List.append_assoc]
        · rw [g2, h2, List.map_append, List.append_assoc]
        · refine List.Nodup.append h3 g3 ?_
          intro x hx1 hx2
          exact g4 x hx2 (hsub1 x hx1)
        · intro x hx
          rcases List.mem_append.mp hx with hx | hx
          · exact h4 x hx
          · intro hxv
            exact g4 x hx (by rw [h1]; exact List.mem_append_left _ hxv)
        · intro u hu
          rcases List.mem_cons.mp hu with rfl | hu'
          · exact hrsub u (hsub1 u h5)
          · exact g5 u hu'
        · intro x hx
          rcases List.mem_append.mp hx with hx | hx
          · obtain ⟨s, hsome, hss⟩ := h6 x hx
            exact ⟨s, hsome, fun y hy => hrsub y (hss y hy)⟩
          · exact g6 x hx
        · intro x hx
          rcases List.mem_append.mp hx with hx | hx
          · exact ⟨v, by simp, h7 x hx⟩
          · obtain ⟨u, hu, hr⟩ := g7 x hx
            exact ⟨u, List.mem_cons_of_mem _ hu, hr⟩

theorem dfsOk_succ (g : Graph) (fuel : Nat) (h : DfsNbOk g fuel) :
    DfsOk g (fuel + 1) := by
  intro u visited word v' w' hu heq
  rw [dfs] at heq
  cases hat : graphAt? g u with
  | none =>
    rw [hat] at heq
    cases heq
  | some nbrs =>
    rw [hat] at heq
    obtain ⟨new₂, g1, g2, g3, g4, g5, g6, g7⟩ := h nbrs _ _ v' w' heq
    have hvis : setInsert visited u = visited ++ [u] := setInsert_of_not_mem _ _ hu
    refine ⟨u :: new₂, ?_, ?_, ?_, ?_, by simp, ?_, ?_⟩
    · rw [g1, hvis, List.append_assoc]
      rfl
    · rw [g2, List.map_cons, List.append_assoc]
      rfl
    · refine List.nodup_cons.mpr ⟨?_, g3⟩
      intro hmem
      exact g4 u hmem (by rw [hvis]; exact List.mem_append_right _ (by simp))
    · intro x hx
      rcases List.mem_cons.mp hx with rfl | hx'
      · exact hu
      · intro hxv
        exact g4 x hx' (by rw [hvis]; exact List.mem_append_left _ hxv)
    · intro x hx
      rcases List.mem_cons.mp hx with rfl | hx'
      · exact ⟨nbrs, hat, g5⟩
      · exact g6 x hx'
    · intro x hx
      rcases List.mem_cons.mp hx with rfl | hx'
      · exact Relation.ReflTransGen.refl
      · obtain ⟨w0, hw0, hr⟩ := g7 x hx'
        have hedge : inNeighbors g u w0 = true :=
          (inNeighbors_iff g u w0).mpr ⟨nbrs, hat, hw0⟩
        exact Relation.ReflTransGen.head hedge hr

theorem dfsOk_all (g : Graph) : ∀ fuel : Nat, DfsOk g fuel := by
  intro fuel
  induction fuel with
  | zero =>
    intro u visited word v' w' _ heq
    rw [dfs] at heq
    cases heq
  | succ n ih =>
    exact dfsOk_succ g n (dfsNbOk_of_dfsOk g n ih)

theorem dfsNbOk_all (g : Graph) (fuel : Nat) : DfsNbOk g fuel :=
  dfsNbOk_of_dfsOk g fuel (dfsOk_all g fuel)

theorem unvisitedCount_le_length (g : Graph) (visited : List LetterNode) :
    unvisitedCount g visited ≤ (keys g).length := by
  rw [unvisitedCount]
  exact List.length_filter_le _ _

theorem unvisitedCount_pos (g : Graph) (visited : List LetterNode)
    (u : LetterNode) (hu : u ∈ keys g) (hnv : u ∉ visited) :
    0 < unvisitedCount g visited := by
  rw [unvisitedCount]
  apply List.length_pos.mpr
  intro hempty
  have : u ∈ (keys g).filter (fun k => decide (k ∉ visited)) :=
    List.mem_filter.mpr ⟨hu, by simp [hnv]⟩
  rw [hempty] at this
  cases this

theorem unvisitedCount_mono (g : Graph) (visited visited' : List LetterNode)
    (h : ∀ x ∈ visited, x ∈ visited') :
    unvisitedCount g visited' ≤ unvisitedCount g visited := by
  rw [unvisitedCount, unvisitedCount, ← List.countP_eq_length_filter,
    ← List.countP_eq_length_filter]
  apply List.countP_mono_left
  intro a _ ha
  simp only [decide_eq_true_eq] at ha ⊢
  intro hmem
  exact ha (h a hmem)

theorem countP_unvisited_append_lt (visited : List LetterNode) (u : LetterNode)
    (hnv : u ∉ visited) :
    ∀ l : List LetterNode, u ∈ l →
      l.countP (fun k => decide (k ∉ visited ++ [u])) <
        l.countP (fun k => decide (k ∉ visited)) := by
  intro l
  induction l with
  | nil => intro h; cases h
  | cons k t ih =>
    intro hu
    rw [List.countP_cons, List.countP_cons]
    have hmono : t.countP (fun k => decide (k ∉ visited ++ [u]))
        ≤ t.countP (fun k => decide (k ∉ visited)) := by
      apply List.countP_mono_left
      intro a _ ha
      simp only [decide_eq_true_eq, List.mem_append, List.mem_singleton] at ha ⊢
      intro hmem
      exact ha (Or.inl hmem)
    have hhead : (if decide (k ∉ visited ++ [u]) = true then 1 else 0)
        ≤ (if decide (k ∉ visited) = true then 1 else 0) := by
      by_cases hk1 : decide (k ∉ visited ++ [u]) = true
      · have hk2 : decide (k ∉ visited) = true := by
          simp only [decide_eq_true_eq] at hk1 ⊢
          intro hmem
          exact hk1 (List.mem_append_left _ hmem)
        rw [if_pos hk1, if_pos hk2]
      · rw [if_neg hk1]
        by_cases hk2 : decide (k ∉ visited) = true
        · rw [if_pos hk2]
          omega
        · rw [if_neg hk2]
    rcases List.mem_cons.mp hu with heq | hut
    · have h1 : decide (k ∉ visited ++ [u]) = false := by
        simp only [decide_eq_false_iff_not, not_not]
        exact List.mem_append_right _ (by simp [heq.symm])
      have h2 : decide (k ∉ visited) = true := by
        simp only [decide_eq_true_eq]
        exact heq ▸ hnv
      rw [h1, h2]
      have e1 : (if (false : Bool) = true then 1 else 0) = 0 := rfl
      have e2 : (if (true : Bool) = true then 1 else 0) = 1 := rfl
      rw [e1, e2]
      omega
    · have := ih hut
      omega

theorem unvisitedCount_insert_lt (g : Graph) (visited : List LetterNode)
    (u : LetterNode) (hu : u ∈ keys g) (hnv : u ∉ visited) :
    unvisitedCount g (setInsert visited u) < unvisitedCount g visited := by
  rw [setInsert_of_not_mem _ _ hnv, unvisitedCount, unvisitedCount,
    ← List.countP_eq_length_filter, ← List.countP_eq_length_filter]
  exact countP_unvisited_append_lt visited u hnv (keys g) hu

theorem dfs_term_all (g : Graph) (hc : Closed g) :
    ∀ fuel : Nat,
      (∀ u visited word, u ∈ keys g → u ∉ visited →
        unvisitedCount g visited ≤ fuel → dfs g fuel u visited word ≠ none) ∧
      (∀ vs visited word, (∀ v ∈ vs, v ∈ keys g) →
        unvisitedCount g visited ≤ fuel → dfsNeighbors g fuel vs visited word ≠ none) := by
  intro fuel
  induction fuel with
  | zero =>
    constructor
    · intro u visited word hu hnv hcount
      have := unvisitedCount_pos g visited u hu hnv
      omega
    · intro vs visited word hvs hcount
      induction vs with
      | nil =>
        rw [dfsNeighbors]
        simp
      | cons v vs ihv =>
        rw [dfsNeighbors]
        by_cases hv : v ∈ visited
        · rw [if_pos hv]
          exact ihv (fun x hx => hvs x (List.mem_cons_of_mem _ hx))
        · have := unvisitedCount_pos g visited v (hvs v (by simp)) hv
          omega
  | succ n ih =>
    have hdfs : ∀ u visited word, u ∈ keys g → u ∉ visited →
        unvisitedCount g visited ≤ n + 1 → dfs g (n + 1) u visited word ≠ none := by
      intro u visited word hu hnv hcount
      obtain ⟨s, hs⟩ := mem_keys_graphAt? g u hu
      rw [dfs, hs]
      apply ih.2
      · intro v hv
        exact hc (u, s) (graphAt?_mem g u s hs) v hv
      · have := unvisitedCount_insert_lt g visited u hu hnv
        omega
    refine ⟨hdfs, ?_⟩
    intro vs
    induction vs with
    | nil =>
      intro visited word hvs hcount
      rw [dfsNeighbors]
      simp
    | cons v vs ihv =>
      intro visited word hvs hcount
      rw [dfsNeighbors]
      by_cases hv : v ∈ visited
      · rw [if_pos hv]
        exact ihv visited word (fun x hx => hvs x (List.mem_cons_of_mem _ hx)) hcount
      · rw [if_neg hv]
        cases hd : dfs g (n + 1) v visited word with
        | none =>
          exact absurd hd (hdfs v visited word (hvs v (by simp)) hv hcount)
        | some r =>
          obtain ⟨new, h1, -, -, -, -, -, -⟩ :=
            dfsOk_all g (n + 1) v visited word r.1 r.2 hv (by rw [hd])
          apply ihv r.1 r.2 (fun x hx => hvs x (List.mem_cons_of_mem _ hx))
          have hmono : unvisitedCount g r.1 ≤ unvisitedCount g visited := by
            apply unvisitedCount_mono
            intro x hx
            rw [h1]
            exact List.mem_append_left _ hx
          omega

/-- C9: on a closed graph (every node of a neighbor set is a key) the
depth-first traversal of `findConnectedComponents` terminates: the fuel
supplied to `dfs` never runs out and a word list is returned. -/
theorem findConnectedComponents_total (g : Graph) (hc : Closed g) :
    ∃ ws, findConnectedComponents g = some ws := by
  rw [findConnectedComponents]
  have haux : ∀ (vs : List LetterNode) (visited : List LetterNode)
      (acc : List (List Char)), (∀ v ∈ vs, v ∈ keys g) →
      ∃ ws, fccAux g vs visited acc = some ws := by
    intro vs
    induction vs with
    | nil =>
      intro visited acc _
      exact ⟨acc, rfl⟩
    | cons u rest ih =>
      intro visited acc hvs
      rw [fccAux]
      by_cases hu : u ∈ visited
      · rw [if_pos hu]
        exact ih visited acc (fun x hx => hvs x (List.mem_cons_of_mem _ hx))
      · rw [if_neg hu]
        cases hd : dfs g (keys g).length u visited [] with
        | none =>
          exact absurd hd ((dfs_term_all g hc (keys g).length).1 u visited []
            (hvs u (by simp)) hu (unvisitedCount_le_length g visited))
        | some r =>
          exact ih r.1 (acc ++ [r.2]) (fun x hx => hvs x (List.mem_cons_of_mem _ hx))
  exact haux (keys g) [] [] (fun v hv => hv)

theorem connStep_symmetric (g : Graph) : Symmetric (ConnStep g) := by
  intro a b h
  rcases h with h | h
  · exact Or.inr h
  · exact Or.inl h

theorem connected_symm (g : Graph) {a b : LetterNode} (h : Connected g a b) :
    Connected g b a :=
  Relation.ReflTransGen.symmetric (connStep_symmetric g) h

open Classical in
theorem mem_componentFinset (g : Graph) (u x : LetterNode) :
    x ∈ componentFinset g u ↔ x ∈ keys g ∧ Connected g u x := by
  rw [componentFinset, Finset.mem_filter, List.mem_toFinset]

theorem componentFinset_congr (g : Graph) (a b : LetterNode)
    (h : Connected g a b) : componentFinset g a = componentFinset g b := by
  ext x
  rw [mem_componentFinset, mem_componentFinset]
  constructor
  · rintro ⟨hk, hconn⟩
    exact ⟨hk, Relation.ReflTransGen.trans (connected_symm g h) hconn⟩
  · rintro ⟨hk, hconn⟩
    exact ⟨hk, Relation.ReflTransGen.trans h hconn⟩

theorem self_mem_componentFinset (g : Graph) (u : LetterNode) (hu : u ∈ keys g) :
    u ∈ componentFinset g u :=
  (mem_componentFinset g u u).mpr ⟨hu, Relation.ReflTransGen.refl⟩

/-- The block of nodes newly visited by one `dfs` call started at `u` on top
of a visited set closed under neighbor steps is exactly the connected
component of `u` (for an entry-symmetric graph). -/
theorem dfs_new_component (g : Graph) (hsym : SymG g)
    (visited new : List LetterNode) (u : LetterNode)
    (hvisclosed : ∀ x ∈ visited, ∀ y, inNeighbors g x y = true → y ∈ visited)
    (hnd : ∀ x ∈ new, x ∉ visited)
    (hu : u ∈ new)
    (hclo : ∀ x ∈ new, ∃ s, graphAt? g x = some s ∧ ∀ y ∈ s, y ∈ visited ++ new)
    (hreach : ∀ x ∈ new,
      Relation.ReflTransGen (fun a b => inNeighbors g a b = true) u x) :
    new.toFinset = componentFinset g u := by
  ext x
  rw [List.mem_toFinset, mem_componentFinset]
  constructor
  · intro hx
    obtain ⟨s, hsome, -⟩ := hclo x hx
    refine ⟨graphAt?_mem_keys g x s hsome, ?_⟩
    exact Relation.ReflTransGen.mono (fun a b h => Or.inl h) (hreach x hx)
  · rintro ⟨-, hconn⟩
    induction hconn with
    | refl => exact hu
    | @tail b c h1 h2 ih =>
      have hedge : inNeighbors g b c = true := by
        rcases h2 with h | h
        · exact h
        · exact symG_inNeighbors g hsym _ _ h
      obtain ⟨s, hsome, hss⟩ := hclo b ih
      obtain ⟨s', hs', hcs⟩ := (inNeighbors_iff g b c).mp hedge
      rw [hsome] at hs'
      injection hs' with hs'
      subst hs'
      have hcv : c ∈ visited ++ new := hss c hcs
      rcases List.mem_append.mp hcv with hcvis | hcnew
      · exfalso
        have hback : inNeighbors g c b = true := symG_inNeighbors g hsym _ _ hedge
        exact hnd b ih (hvisclosed c hcvis b hback)
      · exact hcnew

theorem fccAux_spec (g : Graph) (hc : Closed g) (hsym : SymG g) :
    ∀ (vs visited : List LetterNode) (acc : List (List Char)),
      (∀ v ∈ vs, v ∈ keys g) →
      visited.Nodup →
      (∀ x ∈ visited, ∀ y, inNeighbors g x y = true → y ∈ visited) →
      ∃ parts : List (List LetterNode),
        fccAux g vs visited acc
          = some (acc ++ parts.map (fun p => p.map LetterNode.letter)) ∧
        (visited ++ parts.flatten).Nodup ∧
        (∀ x ∈ parts.flatten, x ∈ keys g) ∧
        (∀ x ∈ visited ++ parts.flatten, ∀ y, inNeighbors g x y = true →
          y ∈ visited ++ parts.flatten) ∧
        (∀ v ∈ vs, v ∈ visited ++ parts.flatten) ∧
        (∀ p ∈ parts, ∃ u, u ∈ keys g ∧ u ∉ visited ∧
          p.toFinset = componentFinset g u) := by
  intro vs
  induction vs with
  | nil =>
    intro visited acc _ hvnd hvclosed
    refine ⟨[], by simp [fccAux], by simpa using hvnd, by simp, ?_, by simp, by simp⟩
    intro x hx y hy
    simp only [List.flatten_nil, List.append_nil] at hx ⊢
    exact hvclosed x hx y hy
  | cons u rest ih =>
    intro visited acc hvs hvnd hvclosed
    rw [fccAux]
    by_cases hu : u ∈ visited
    · rw [if_pos hu]
      obtain ⟨parts, e1, e2, e3, e4, e5, e6⟩ :=
        ih visited acc (fun x hx => hvs x (List.mem_cons_of_mem _ hx)) hvnd hvclosed
      refine ⟨parts, e1, e2, e3, e4, ?_, e6⟩
      intro v hv
      rcases List.mem_cons.mp hv with rfl | hv'
      · exact List.mem_append_left _ hu
      · exact e5 v hv'
    · rw [if_neg hu]
      have hukeys : u ∈ keys g := hvs u (by simp)
      cases hd : dfs g (keys g).length u visited [] with
      | none =>
        exact absurd hd ((dfs_term_all g hc (keys g).length).1 u visited []
          hukeys hu (unvisitedCount_le_length g visited))
      | some r =>
        obtain ⟨new, h1, h2, h3, h4, h5, h6, h7⟩ :=
          dfsOk_all g (keys g).length u visited [] r.1 r.2 hu (by rw [hd])
        have hnewkeys : ∀ x ∈ new, x ∈ keys g := by
          intro x hx
          obtain ⟨s, hsome, -⟩ := h6 x hx
          exact graphAt?_mem_keys g x s hsome
        have hv1nd : r.1.Nodup := by
          rw [h1]
          exact List.Nodup.append hvnd h3 (fun x hx1 hx2 => h4 x hx2 hx1)
        have hv1closed : ∀ x ∈ r.1, ∀ y, inNeighbors g x y = true → y ∈ r.1 := by
          intro x hx y hy
          rw [h1] at hx ⊢
          rcases List.mem_append.mp hx with hx | hx
          · exact List.mem_append_left _ (hvclosed x hx y hy)
          · obtain ⟨s, hsome, hss⟩ := h6 x hx
            obtain ⟨s', hs', hys⟩ := (inNeighbors_iff g x y).mp hy
            rw [hsome] at hs'
            injection hs' with hs'
            subst hs'
            have := hss y hys
            rw [h1] at this
            exact this
        obtain ⟨parts', e1, e2, e3, e4, e5, e6⟩ :=
          ih r.1 (acc ++ [r.2]) (fun x hx => hvs x (List.mem_cons_of_mem _ hx))
            hv1nd hv1closed
        have hw : r.2 = new.map LetterNode.letter := by
          rw [h2]
          rfl
        have hassoc : ∀ (L : List LetterNode) (M : List LetterNode)
            (N : List LetterNode), (L ++ M) ++ N = L ++ (M ++ N) :=
          fun L M N => List.append_assoc L M N
        refine ⟨new :: parts', ?_, ?_, ?_, ?_, ?_, ?_⟩
        · show fccAux g rest r.1 (acc ++ [r.2]) = _
          rw [e1, hw]
          congr 1
          rw [List.map_cons, ← List.append_cons]
        · rw [List.flatten_cons, ← hassoc, ← h1]
          exact e2
        · intro x hx
          rw [List.flatten_cons] at hx
          rcases List.mem_append.mp hx with hx | hx
          · exact hnewkeys x hx
          · exact e3 x hx
        · intro x hx y hy
          rw [List.flatten_cons, ← hassoc, ← h1] at hx ⊢
          exact e4 x hx y hy
        · intro v hv
          rw [List.flatten_cons, ← hassoc, ← h1]
          rcases List.mem_cons.mp hv with rfl | hv'
          · apply List.mem_append_left
            rw [h1]
            exact List.mem_append_right _ h5
          · exact e5 v hv'
        · intro p hp
          rcases List.mem_cons.mp hp with rfl | hp'
          · refine ⟨u, hukeys, hu, ?_⟩
            exact dfs_new_component g hsym visited p u hvclosed h4 h5
              (fun x hx => by
                obtain ⟨s, hsome, hss⟩ := h6 x hx
                exact ⟨s, hsome, fun y hy => by
                  have := hss y hy
                  rw [h1] at this
                  exact this⟩) h7
          · obtain ⟨u', hu'k, hu'nv, hu'comp⟩ := e6 p hp'
            refine ⟨u', hu'k, ?_, hu'comp⟩
            intro hmem
            exact hu'nv (by rw [h1]; exact List.mem_append_left _ hmem)

theorem pairwise_disjoint_of_nodup_flatten (L : List (List LetterNode))
    (h : L.flatten.Nodup) : L.Pairwise List.Disjoint :=
  (List.nodup_flatten.mp h).2

/-- C2 (amended): for every graph whose neighbor-set members are all keys
(`Closed`), whose keys are pairwise distinct, and which is symmetric
(`SymG`), `findConnectedComponents` returns a word per connected component:
the words arise from a partition `parts` of the key set (every key in
exactly one block), the number of words equals the number of connected
components, and each block is exactly the node multiset of one component
(hence each word's letter multiset is that component's letter multiset). -/
theorem findConnectedComponents_spec (g : Graph)
    (hnd : (keys g).Nodup) (hc : Closed g) (hsym : SymG g) :
    ∃ (ws : List (List Char)) (parts : List (List LetterNode)),
      findConnectedComponents g = some ws ∧
      ws = parts.map (fun p => p.map LetterNode.letter) ∧
      parts.flatten.Perm (keys g) ∧
      (ws.map List.length).sum = (keys g).length ∧
      ws.length = componentCount g ∧
      (∀ p ∈ parts, ∃ u ∈ keys g,
        (↑p : Multiset LetterNode) = (componentFinset g u).val ∧
        (↑(p.map LetterNode.letter) : Multiset Char)
          = ((componentFinset g u).val.map LetterNode.letter)) := by
  obtain ⟨parts, e1, e2, e3, e4, e5, e6⟩ :=
    fccAux_spec g hc hsym (keys g) [] [] (fun v hv => hv) (by simp) (by simp)
  simp only [List.nil_append] at e1 e2 e3 e4 e5 e6
  have hperm : parts.flatten.Perm (keys g) := by
    apply List.Subperm.antisymm
    · exact List.Nodup.subperm e2 e3
    · exact List.Nodup.subperm hnd e5
  have hpnodup : ∀ p ∈ parts, p.Nodup := by
    intro p hp
    exact (List.nodup_flatten.mp e2).1 p hp
  have hpnonempty : ∀ p ∈ parts, ∃ u, u ∈ keys g ∧ u ∈ p ∧
      p.toFinset = componentFinset g u := by
    intro p hp
    obtain ⟨u, huk, -, hucomp⟩ := e6 p hp
    refine ⟨u, huk, ?_, hucomp⟩
    rw [← List.mem_toFinset, hucomp]
    exact self_mem_componentFinset g u huk
  have he1 : findConnectedComponents g
      = some (parts.map (fun p => p.map LetterNode.letter)) := by
    rw [findConnectedComponents]
    exact e1
  have hlensum : ((parts.map (fun p => p.map LetterNode.letter)).map List.length).sum
      = (keys g).length := by
    rw [List.map_map]
    have hcomp : (List.length ∘ fun p : List LetterNode => p.map LetterNode.letter)
        = List.length := by
      funext p
      simp
    rw [hcomp, ← List.length_flatten, hperm.length_eq]
  refine ⟨parts.map (fun p => p.map LetterNode.letter), parts, he1, rfl, hperm,
    hlensum, ?_, ?_⟩
  · rw [List.length_map, componentCount]
    have hdisj := pairwise_disjoint_of_nodup_flatten parts e2
    have hne : parts.Pairwise (fun p q => p.toFinset ≠ q.toFinset) := by
      refine List.Pairwise.imp_of_mem ?_ hdisj
      intro p q hp hq hdis heq
      obtain ⟨u, -, hup, -⟩ := hpnonempty p hp
      have huq : u ∈ q := by
        rw [← List.mem_toFinset, ← heq, List.mem_toFinset]
        exact hup
      exact hdis hup huq
    have hFnodup : (parts.map List.toFinset).Nodup :=
      List.Pairwise.map List.toFinset (fun a b h => h) hne
    have himage : (parts.map List.toFinset).toFinset
        = (keys g).toFinset.image (fun u => componentFinset g u) := by
      ext X
      rw [List.mem_toFinset, Finset.mem_image]
      constructor
      · intro hX
        obtain ⟨p, hp, rfl⟩ := List.mem_map.mp hX
        obtain ⟨u, huk, -, hucomp⟩ := hpnonempty p hp
        exact ⟨u, List.mem_toFinset.mpr huk, hucomp.symm⟩
      · rintro ⟨u, hu, rfl⟩
        have huk : u ∈ keys g := List.mem_toFinset.mp hu
        obtain ⟨p, hp, hup⟩ := List.mem_flatten.mp (e5 u huk)
        obtain ⟨u', hu'k, hu'p, hu'comp⟩ := hpnonempty p hp
        have hconn : Connected g u' u := by
          have hmem : u ∈ p.toFinset := List.mem_toFinset.mpr hup
          rw [hu'comp] at hmem
          exact ((mem_componentFinset g u' u).mp hmem).2
        rw [← componentFinset_congr g u' u hconn, ← hu'comp]
        exact List.mem_map_of_mem List.toFinset hp
    rw [← himage, List.toFinset_card_of_nodup hFnodup, List.length_map]
  · intro p hp
    obtain ⟨u, huk, -, hucomp⟩ := hpnonempty p hp
    have hval : (↑p : Multiset LetterNode) = (componentFinset g u).val := by
      rw [← hucomp, List.toFinset_val, List.dedup_eq_self.mpr (hpnodup p hp)]
    refine ⟨u, huk, hval, ?_⟩
    rw [← hval, ← Multiset.map_coe]

/-! ### Concrete instances: counterexamples and witnesses -/

/-- C4 (counterexample): the node `A` is in the input but, under a predicate
that relates no pair at all, it does not appear as a key of the built graph —
so not every input node appears as a key. -/
theorem createLetterNodeGraph_isolated_dropped :
    nodeA ∈ [nodeA] ∧
    nodeA ∉ keys (createLetterNodeGraph [nodeA] (fun _ _ => false)) := by
  decide

open Classical in
/-- C2 (counterexample): `gPath` is a closed graph (every neighbor-set node
is a key) on which `findConnectedComponents` returns two words although the
graph has exactly one connected component — the claim fails without a
symmetry assumption. -/
theorem findConnectedComponents_count_counterexample :
    Closed gPath ∧
    findConnectedComponents gPath = some [['B'], ['A']] ∧
    componentCount gPath = 1 ∧
    ¬ ([['B'], ['A']] : List (List Char)).length = componentCount gPath := by
  have hAB : inNeighbors gPath nodeA nodeB = true := by decide
  have hconnBA : Connected gPath nodeB nodeA :=
    Relation.ReflTransGen.single (Or.inr hAB)
  have hconnAB : Connected gPath nodeA nodeB :=
    Relation.ReflTransGen.single (Or.inl hAB)
  have hkeysF : (keys gPath).toFinset = {nodeB, nodeA} := by decide
  have hmemBA : ∀ x ∈ (keys gPath).toFinset, x = nodeB ∨ x = nodeA := by
    intro x hx
    rw [List.mem_toFinset] at hx
    rcases List.mem_cons.mp hx with h | hx'
    · exact Or.inl h
    · exact Or.inr (List.mem_singleton.mp hx')
  have hfB : componentFinset gPath nodeB = (keys gPath).toFinset := by
    rw [componentFinset]
    apply Finset.filter_true_of_mem
    intro x hx
    rcases hmemBA x hx with rfl | rfl
    · exact Relation.ReflTransGen.refl
    · exact hconnBA
  have hfA : componentFinset gPath nodeA = (keys gPath).toFinset := by
    rw [componentFinset]
    apply Finset.filter_true_of_mem
    intro x hx
    rcases hmemBA x hx with rfl | rfl
    · exact hconnAB
    · exact Relation.ReflTransGen.refl
  have hcount : componentCount gPath = 1 := by
    rw [componentCount, hkeysF, Finset.image_insert, Finset.image_singleton, hfB,
      hfA, Finset.insert_eq_self.mpr (Finset.mem_singleton_self _),
      Finset.card_singleton]
  have heval : findConnectedComponents gPath = some [['B'], ['A']] := by
    simp [findConnectedComponents, fccAux, keys, gPath, dfs, dfsNeighbors,
      graphAt?, setInsert, nodeA, nodeB, sampleRect]
  refine ⟨by decide, heval, hcount, ?_⟩
  rw [hcount]
  decide

/-- C2 (witness): the amended extractor specification applied to the
concrete symmetric closed graph `gSym`. -/
theorem findConnectedComponents_spec_witness :
    ∃ (ws : List (List Char)) (parts : List (List LetterNode)),
      findConnectedComponents gSym = some ws ∧
      ws = parts.map (fun p => p.map LetterNode.letter) ∧
      parts.flatten.Perm (keys gSym) ∧
      (ws.map List.length).sum = (keys gSym).length ∧
      ws.length = componentCount gSym ∧
      (∀ p ∈ parts, ∃ u ∈ keys gSym,
        (↑p : Multiset LetterNode) = (componentFinset gSym u).val ∧
        (↑(p.map LetterNode.letter) : Multiset Char)
          = ((componentFinset gSym u).val.map LetterNode.letter)) :=
  findConnectedComponents_spec gSym (by decide) (by decide) (by decide)

/-- C3 (witness): the subset-enumeration count at the concrete two-word
input. -/
theorem generateSubsets_filtered_spec_witness :
    ∃ l : List (List Nat),
      (generateSubsets ((([['A'], ['B']] : List Str).length : Int) - 1)
          [['A'], ['B']]).filter (fun s => !(s.length ≤ 1 : Bool))
        = l.map (selectWords [['A'], ['B']]) ∧
      l.Nodup ∧
      (∀ S : List Nat, S ∈ l ↔
        (S.Sorted (· < ·) ∧ (∀ j ∈ S, j < ([['A'], ['B']] : List Str).length) ∧
          2 ≤ S.length)) ∧
      l.length = 2 ^ ([['A'], ['B']] : List Str).length
        - ([['A'], ['B']] : List Str).length - 1 :=
  generateSubsets_filtered_spec [['A'], ['B']] (by decide)

/-- C5 (witness): symmetry of a concretely built graph. -/
theorem createLetterNodeGraph_symm_witness :
    inNeighbors (createLetterNodeGraph [nodeA, nodeB] (fun _ _ => true))
      nodeA nodeB = true :=
  createLetterNodeGraph_symm [nodeA, nodeB] (fun _ _ => true)
    (fun _ _ => rfl) nodeA nodeB (by decide)

/-- C7 (witness): a one-word input yields the empty result. -/
theorem generateSnatchableWords_small_witness :
    generateSnatchableWords [] [['A']] = [] :=
  generateSnatchableWords_small [] [['A']] (by decide)

/-- C8 (witness): two zero-area footprints with a unit enclosing area are
not adjacent. -/
theorem boundingBoxAdjacencyStrategy_zero_area_witness :
    boundingBoxAdjacencyStrategy (fun _ _ => 1) nodeA nodeA = false :=
  boundingBoxAdjacencyStrategy_zero_area (fun _ _ => 1) nodeA nodeA
    (by norm_num) (by norm_num [nodeA, sampleRect, Size2f.area])
    (by norm_num [nodeA, sampleRect, Size2f.area]) (by norm_num)

/-- C9 (witness): the extractor terminates on the concrete closed graph
`gLoop`. -/
theorem findConnectedComponents_total_witness :
    ∃ ws, findConnectedComponents gLoop = some ws :=
  findConnectedComponents_total gLoop (by decide)

end Snatchbot
